import Mathlib

/-!
Verification development for the NoGo gitignore library.

The embedding works on `List Char` (named `Str` here).  Go strings are
byte sequences; every input relevant to this development is ASCII, where
bytes, runes and `Char`s coincide.

Embedded source files:
  * `rule.go`    — `Rule`, `Rule.MatchPath`, `Compile`, `CompileAll`
  * `result.go`  — `Result`, `Result.Resolve`
  * `nogo.go`    — `group`, `NoGo`, `AddRules`, `AddFile`, `Match`,
                   `MatchBecause`, `MatchWithoutParents`, `match`
The Go standard-library helpers they call (`strings.*`, `regexp` on the
emitted pattern subset, `path/filepath` on slash paths) are modelled
below from their documented behaviour.
-/

set_option maxRecDepth 20000

abbrev Str := List Char

/-! ## Go `strings` helpers -/

/-- Go `strings.HasPrefix`. -/
def hasPrefix (pre s : Str) : Bool := pre.isPrefixOf s

/-- Go `strings.HasSuffix`. -/
def hasSuffix (suf s : Str) : Bool := suf.isSuffixOf s

/-- Go `strings.TrimPrefix`. -/
def trimPrefix (s pre : Str) : Str :=
  if hasPrefix pre s then s.drop pre.length else s

/-- Go `strings.TrimSuffix`. -/
def trimSuffix (s suf : Str) : Str :=
  if hasSuffix suf s then s.take (s.length - suf.length) else s

/-- Go `strings.TrimRight(s, " ")`: drop all trailing spaces. -/
def trimRightSpaces (s : Str) : Str :=
  (s.reverse.dropWhile (fun c => c == ' ')).reverse

/-- Go `strings.Count(s, string(c))` for a one-character substring. -/
def countChar (c : Char) (s : Str) : Nat := s.count c

/-- The scanning loop of `strings.ReplaceAll`, with an explicit step
budget to keep the recursion structural (and hence kernel-reducible).
Every step consumes at least one input character, so a budget of
`s.length` is never exhausted. -/
def replaceAllFuel (pat repl : Str) : Nat → Str → Str
  | _, [] => []
  | 0, s => s
  | fuel + 1, c :: rest =>
    if pat.isPrefixOf (c :: rest) then
      -- `(c :: rest).drop pat.length = rest.drop (pat.length - 1)`
      -- since the caller ensures `pat` is nonempty.
      repl ++ replaceAllFuel pat repl fuel (rest.drop (pat.length - 1))
    else
      c :: replaceAllFuel pat repl fuel rest

/-- Go `strings.ReplaceAll`: replace every non-overlapping occurrence of
`pat` by `repl`, scanning left to right.  (Go inserts `repl` between
characters when `pat` is empty; that case is never exercised here and the
string is returned unchanged.) -/
def replaceAll (pat repl : Str) (s : Str) : Str :=
  if pat.isEmpty then s else replaceAllFuel pat repl s.length s

/-- Go `strings.Split(s, string(sep))` for a one-character separator. -/
def splitOn (sep : Char) : Str → List Str
  | [] => [[]]
  | c :: rest =>
    match splitOn sep rest with
    | [] => [[c]]
    | x :: xs => if c == sep then [] :: x :: xs else (c :: x) :: xs

/-- Go `strings.Split(s, "/")`. -/
def splitSlash : Str → List Str := splitOn '/'

/-- Go `strings.Join(xs, "/")`. -/
def joinSlash : List Str → Str
  | [] => []
  | [s] => s
  | s :: rest => s ++ '/' :: joinSlash rest

/-! ## Go `regexp.QuoteMeta` -/

/-- The characters Go `regexp.QuoteMeta` escapes. -/
def isRegexSpecial (c : Char) : Bool :=
  c == '\\' || c == '.' || c == '+' || c == '*' || c == '?' || c == '(' ||
  c == ')' || c == '|' || c == '[' || c == ']' ||
  c == Char.ofNat 123 || c == Char.ofNat 125 || c == '^' || c == '$'

/-- Go `regexp.QuoteMeta`. -/
def quoteMeta (s : Str) : Str :=
  s.flatMap (fun c => if isRegexSpecial c then ['\\', c] else [c])

/-! ## A regular-expression engine for the emitted pattern subset

`Compile` in `rule.go` only ever feeds `regexp.Compile` strings built from
quoted literal text, character classes, `.` , the postfix operators `*` and
`?`, the group `(.*/)?` resp. `(/.*)?`, and the outer anchors `^`/`$`.
The syntax below covers exactly that subset; parsing fails (like
`regexp.Compile`) on malformed input such as an unterminated class. -/

inductive RItem where
  | single (c : Char)
  | range (lo hi : Char)
deriving DecidableEq, Repr

inductive Regex where
  | fail
  | eps
  | lit (c : Char)
  | dot
  | cls (neg : Bool) (items : List RItem)
  | cat (a b : Regex)
  | alt (a b : Regex)
  | star (r : Regex)
  | opt (r : Regex)
deriving DecidableEq, Repr

def RItem.holds (c : Char) : RItem → Bool
  | .single d => c == d
  | .range lo hi => decide (lo ≤ c) && decide (c ≤ hi)

/-- Character-class membership; a negated class matches any rune not in the
set (Go RE2 semantics). -/
def clsMatches (neg : Bool) (items : List RItem) (c : Char) : Bool :=
  if neg then !(items.any (RItem.holds c)) else items.any (RItem.holds c)

def Regex.nullable : Regex → Bool
  | .fail => false
  | .eps => true
  | .lit _ => false
  | .dot => false
  | .cls _ _ => false
  | .cat a b => a.nullable && b.nullable
  | .alt a b => a.nullable || b.nullable
  | .star _ => true
  | .opt _ => true

/-- Brzozowski derivative. -/
def Regex.deriv : Regex → Char → Regex
  | .fail, _ => .fail
  | .eps, _ => .fail
  | .lit d, c => if c == d then .eps else .fail
  | .dot, c => if c == '\n' then .fail else .eps
  | .cls neg items, c => if clsMatches neg items c then .eps else .fail
  | .cat a b, c =>
    if a.nullable then .alt (.cat (a.deriv c) b) (b.deriv c)
    else .cat (a.deriv c) b
  | .alt a b, c => .alt (a.deriv c) (b.deriv c)
  | .star r, c => .cat (r.deriv c) (.star r)
  | .opt r, c => r.deriv c

/-- Full match of `s` against `r`. -/
def Regex.matches (r : Regex) (s : Str) : Bool :=
  (s.foldl Regex.deriv r).nullable

/-! ### Parser for the emitted subset -/

/-- Parse the body of a character class (the part after `[` or `[^`),
up to and including the closing `]`.  Class members may be
backslash-escaped; `lo-hi` forms a range when `hi` is not the closing
bracket.  Like Go RE2 an unterminated class is an error, and `[]` /`[^]`
is rejected (RE2 has no POSIX "]-first" rule). -/
def parseClsBody : Str → Option (List RItem × Str)
  | [] => none
  | ']' :: rest => some ([], rest)
  | '\\' :: d :: rest =>
    match parseClsBody rest with
    | some (items, rest2) => some (.single d :: items, rest2)
    | none => none
  | c :: '-' :: d :: rest =>
    if d == ']' then
      -- trailing '-' is a literal member
      match parseClsBody ('-' :: d :: rest) with
      | some (items, rest2) => some (.single c :: items, rest2)
      | none => none
    else
      match parseClsBody rest with
      | some (items, rest2) => some (.range c d :: items, rest2)
      | none => none
  | c :: rest =>
    match parseClsBody rest with
    | some (items, rest2) => some (.single c :: items, rest2)
    | none => none

mutual

/-- Parse one atom (literal, escape, `.`, class, or group). -/
def parseAtom (fuel : Nat) (s : Str) : Option (Regex × Str) :=
  match fuel, s with
  | 0, _ => none
  | _, [] => none
  | fuel + 1, c :: rest =>
    if c == '\\' then
      match rest with
      | d :: rest2 => some (.lit d, rest2)
      | [] => none
    else if c == '.' then
      some (.dot, rest)
    else if c == '[' then
      match rest with
      | '^' :: rest2 =>
        match rest2 with
        | ']' :: _ => none
        | _ =>
          match parseClsBody rest2 with
          | some (items, rest3) => some (.cls true items, rest3)
          | none => none
      | ']' :: _ => none
      | _ =>
        match parseClsBody rest with
        | some (items, rest3) => some (.cls false items, rest3)
        | none => none
    else if c == '(' then
      match parseSeq fuel rest with
      | some (r, rest2) =>
        match rest2 with
        | ')' :: rest3 => some (r, rest3)
        | _ => none
      | none => none
    else if c == ')' || c == '*' || c == '?' || c == '|' || c == '+' ||
            c == '^' || c == '$' then
      none
    else
      some (.lit c, rest)

/-- Parse a concatenation of postfix-decorated atoms, stopping at `)` or
the end of input. -/
def parseSeq (fuel : Nat) (s : Str) : Option (Regex × Str) :=
  match fuel, s with
  | 0, _ => none
  | _, [] => some (.eps, [])
  | fuel + 1, c :: rest =>
    if c == ')' then some (.eps, c :: rest)
    else
      match parseAtom fuel (c :: rest) with
      | none => none
      | some (a, rest2) =>
        let (a, rest3) :=
          match rest2 with
          | '*' :: r3 => (Regex.star a, r3)
          | '?' :: r3 => (Regex.opt a, r3)
          | _ => (a, rest2)
        match parseSeq fuel rest3 with
        | none => none
        | some (b, rest4) => some (.cat a b, rest4)

end

/-- Model of Go `regexp.Compile` restricted to the emitted shape
`^ body $`: strip the outer anchors, then parse `body`; `none` models a
compile error. -/
def regexpCompile (src : Str) : Option Regex :=
  let inner :=
    match src with
    | '^' :: rest => rest
    | other => other
  let inner :=
    if hasSuffix ['$'] inner then inner.take (inner.length - 1) else inner
  match parseSeq (inner.length + 1) inner with
  | some (r, []) => some r
  | _ => none

/-- Model of `(*regexp.Regexp).MatchString` for the emitted (two-sided
anchored) patterns: a full-string match of the body. -/
def matchString (src : Str) (s : Str) : Bool :=
  match regexpCompile src with
  | some r => r.matches s
  | none => false

/-! ## Go `path/filepath` helpers (slash separator, as on Linux)

Modelled from the spec of Go `path.Clean` ("replace runs of slashes,
eliminate `.` elements, eliminate inner `..` together with the preceding
element, eliminate `..` at the root"), which `filepath.Clean`/`Join`
follow on a slash-separator system. -/

/-- One step of `Clean`: process the slash-separated elements, with `out`
holding the already-emitted elements in reverse order. -/
def cleanSegs (rooted : Bool) : List Str → List Str → List Str
  | [], out => out.reverse
  | s :: rest, out =>
    if s == [] || s == ['.'] then cleanSegs rooted rest out
    else if s == ['.', '.'] then
      match out with
      | o :: os =>
        if o == ['.', '.'] then cleanSegs rooted rest (s :: o :: os)
        else cleanSegs rooted rest os
      | [] => if rooted then cleanSegs rooted rest [] else cleanSegs rooted rest [s]
    else cleanSegs rooted rest (s :: out)

/-- Go `path.Clean` (= `filepath.Clean` with `/` separator). -/
def clean (p : Str) : Str :=
  if p == [] then ['.']
  else
    let rooted := hasPrefix ['/'] p
    let segs := cleanSegs rooted (splitSlash p) []
    let body := joinSlash segs
    if rooted then '/' :: body
    else if body == [] then ['.']
    else body

/-- Go `filepath.ToSlash`; the identity on a system whose separator is
already `/`. -/
def toSlash (p : Str) : Str := p

/-- Go `filepath.Join(a, b)`: skip leading empty elements, join with `/`,
then `Clean`; all-empty input yields the empty string. -/
def join2 (a b : Str) : Str :=
  if a == [] then (if b == [] then [] else clean b)
  else clean (a ++ '/' :: b)

/-- Go `filepath.Dir`: everything up to and including the final `/`
(empty if there is none), passed through `Clean`. -/
def dirOf (p : Str) : Str :=
  let pre := (p.reverse.dropWhile (fun c => !(c == '/'))).reverse
  clean pre

/-! ## `rule.go` -/

/-- `Rule` from `rule.go`.  `Regexp` holds the source text of the compiled
regular expressions (Go keeps `*regexp.Regexp` values; their source is
what matters for matching, via `matchString`). -/
structure Rule where
  Regexp : List Str
  Prefix : Str
  Pattern : Str
  Negate : Bool
  OnlyFolder : Bool
deriving DecidableEq, Repr

/-- The zero value `Rule{}`. -/
def emptyRule : Rule := ⟨[], [], [], false, false⟩

/-! ## `result.go` -/

/-- `Result` from `result.go` (it embeds `Rule`). -/
structure Result where
  Rule : Rule
  Found : Bool
  ParentMatch : Bool
deriving DecidableEq, Repr

/-- The zero value `Result{}`. -/
def emptyResult : Result := ⟨emptyRule, false, false⟩

/-- `Result.Resolve` from `result.go`. -/
def Result.Resolve (r : Result) (isDir : Bool) : Bool :=
  if r.Found && r.Rule.OnlyFolder && !isDir && !r.ParentMatch then false
  else if r.Found && r.Rule.Negate then false
  else r.Found

/-- `Rule.MatchPath` from `rule.go`: all regexps have to match; the first
failure exits early with `Found = false`. -/
def Rule.MatchPath (r : Rule) (path : Str) : Result :=
  go r.Regexp false
where
  go : List Str → Bool → Result
    | [], m => ⟨r, m, false⟩
    | reg :: rest, _ =>
      if matchString reg path then go rest true else ⟨r, false, false⟩

/-! ### The placeholder bytes of `rule.go` -/

def doubleStar : Str := [Char.ofNat 0]
def singleStar : Str := [Char.ofNat 1]
def questionMark : Str := [Char.ofNat 2]
def negatedMatchStart : Str := [Char.ofNat 3]
def matchStart : Str := [Char.ofNat 4]
def matchEnd : Str := [Char.ofNat 5]
def escapedMatchStart : Str := [Char.ofNat 6]
def escapedMatchEnd : Str := [Char.ofNat 7]

/-- Scan for the first `matchEnd` byte, returning the remainder after it;
`.*?` in `findRangeReg` cannot cross a newline, and fails at end of
input. -/
def findMatchEnd : Str → Option Str
  | [] => none
  | c :: rest =>
    if c == Char.ofNat 5 then some rest
    else if c == '\n' then none
    else findMatchEnd rest


/-- The scanning loop of `findRangeReg.ReplaceAllString`, with an
explicit step budget (every step consumes at least one character, so a
budget of `s.length` is never exhausted). -/
def findRangeReplaceFuel : Nat → Str → Str
  | _, [] => []
  | 0, s => s
  | fuel + 1, c :: rest =>
    if c == Char.ofNat 4 || c == Char.ofNat 3 then
      match findMatchEnd rest with
      | some tail => '[' :: '^' :: '/' :: ']' :: findRangeReplaceFuel fuel tail
      | none => c :: findRangeReplaceFuel fuel rest
    else c :: findRangeReplaceFuel fuel rest

/-- Model of `findRangeReg.ReplaceAllString(pattern, "[^/]")`: the regexp
is the ungreedy `[matchStart negatedMatchStart].*?matchEnd`, so every
leftmost-shortest span from a class-start placeholder to the next
`matchEnd` placeholder is replaced by `[^/]`. -/
def findRangeReplace (s : Str) : Str := findRangeReplaceFuel s.length s

inductive CompileError where
  /-- `regexp.Compile` rejected the generated expression. -/
  | regexSyntax
  /-- `pattern[0]` on an empty string: Go panics here (a line of only
  spaces reaches this index after trimming). -/
  | emptyIndex
deriving DecidableEq, Repr

/-- The `finishPattern` closure inside `Compile`.  Note the faithful
quirk: the `escapedMatchStart`/`escapedMatchEnd` restorations act on the
argument `p`, but the `negatedMatchStart`/`matchStart`/`matchEnd`
restorations act on the captured outer `pattern` variable (returned here
as the second component). -/
def finishPattern (pre p pat : Str) : Option Str × Str :=
  let p := replaceAll escapedMatchStart ['['] p
  let p := replaceAll escapedMatchEnd [']'] p
  let pat := replaceAll negatedMatchStart ['[', '^'] pat
  let pat := replaceAll matchStart ['['] pat
  let pat := replaceAll matchEnd [']'] pat
  let src := '^' :: (quoteMeta pre ++ trimPrefix p ['/'] ++ ['$'])
  match regexpCompile src with
  | some _ => (some src, pat)
  | none => (none, pat)

/-- `Compile` from `rule.go`.  Result `(skip, rule, err)` as in Go. -/
def Compile (pre pat0 : Str) : Bool × Rule × Option CompileError :=
  match pat0 with
  | [] => (true, emptyRule, none)
  | c0 :: _ =>
    if c0 == '#' then (true, emptyRule, none)
    else
      let pat1 := if hasPrefix ['\\', '#'] pat0 then pat0.drop 1 else pat0
      let pat2 :=
        if hasSuffix ['\\', ' '] pat1 then trimSuffix pat1 ['\\', ' '] ++ [' ']
        else trimRightSpaces pat1
      match pat2 with
      | [] => (false, emptyRule, some .emptyIndex)
      | d0 :: _ =>
        let negate := d0 == '!'
        let pat3 := if negate then pat2.drop 1 else pat2
        let anchorFree := countChar '/' (trimSuffix pat3 ['/']) == 0
        let pre2 :=
          if anchorFree then pre
          else if !(pre == []) then trimSuffix pre ['/'] ++ ['/']
          else pre
        let pat4 :=
          if anchorFree then '*' :: '*' :: '/' :: trimPrefix pat3 ['/'] else pat3
        let p := replaceAll ['*', '*'] doubleStar pat4
        let p := replaceAll ['*'] singleStar p
        let p := replaceAll ['?'] questionMark p
        let p := replaceAll ('\\' :: doubleStar) ['*', '*'] p
        let p := replaceAll ('\\' :: singleStar) ['*'] p
        let p := replaceAll ('\\' :: questionMark) ['?'] p
        let p := quoteMeta p
        let p := replaceAll ['\\', '\\', '['] escapedMatchStart p
        let p := replaceAll ['\\', '\\', ']'] escapedMatchEnd p
        let p := replaceAll ['\\', '[', '!'] negatedMatchStart p
        let p := replaceAll ['\\', '['] matchStart p
        let p := replaceAll ['\\', ']'] matchEnd p
        let onlyFolder := hasSuffix ['/'] p
        let p := if onlyFolder then trimSuffix p ['/'] else p
        let p := replaceAll questionMark ['[', '^', '/', ']', '?'] p
        let (pre3, p) :=
          if hasPrefix (doubleStar ++ ['/']) p then
            if pre2 == [] then
              (pre2, ['(', '.', '*', '/', ')', '?'] ++ trimPrefix p (doubleStar ++ ['/']))
            else
              (trimSuffix pre2 ['/'],
               ['(', '/', '.', '*', ')', '?'] ++ trimPrefix p doubleStar)
          else (pre2, p)
        let p :=
          if hasSuffix ('/' :: doubleStar) p then trimSuffix p doubleStar ++ ['.', '*']
          else p
        let p := replaceAll ('/' :: doubleStar ++ ['/']) ['.', '*', '/'] p
        let p := replaceAll singleStar ['[', '^', '/', ']', '*'] p
        let p := replaceAll doubleStar ['[', '^', '/', ']', '*'] p
        let additional := findRangeReplace p
        if !(additional == p) then
          match finishPattern pre3 additional p with
          | (none, _) => (false, emptyRule, some .regexSyntax)
          | (some src1, pMut) =>
            match finishPattern pre3 pMut pMut with
            | (none, _) => (false, emptyRule, some .regexSyntax)
            | (some src2, _) =>
              (false,
               { Regexp := [src1, src2], Prefix := pre, Pattern := pat0,
                 Negate := negate, OnlyFolder := onlyFolder }, none)
        else
          match finishPattern pre3 p p with
          | (none, _) => (false, emptyRule, some .regexSyntax)
          | (some src, _) =>
            (false,
             { Regexp := [src], Prefix := pre, Pattern := pat0,
               Negate := negate, OnlyFolder := onlyFolder }, none)

/-- `CompileAll` from `rule.go`: split on newlines, strip a trailing
`\r`, compile each line, collect the non-skipped rules; the first compile
error aborts the whole batch, returning `nil` rules and the error. -/
def CompileAll (pre data : Str) : List Rule × Option CompileError :=
  go (splitOn '\n' data) []
where
  go : List Str → List Rule → List Rule × Option CompileError
    | [], acc => (acc, none)
    | line :: rest, acc =>
      let line := trimSuffix line ['\r']
      match Compile pre line with
      | (_, _, some e) => ([], some e)
      | (true, _, none) => go rest acc
      | (false, rule, none) => go rest (acc ++ [rule])

/-! ## `nogo.go` -/

/-- `group` from `nogo.go` (field `prefix` is a reserved word in Lean and
is capitalised here). -/
structure RuleGroup where
  Prefix : Str
  rules : List Rule
deriving DecidableEq, Repr

/-- The `groups` field of the `NoGo` struct: the whole mutable state of a
`NoGo` value. -/
abbrev NoGo := List RuleGroup

/-- `NoGo.AddRules`: every rule becomes its own group, keyed by the
rule's own `Prefix`. -/
def AddRules (n : NoGo) (rules : List Rule) : NoGo :=
  n ++ rules.map (fun r => ⟨r.Prefix, [r]⟩)

/-- Errors surfaced by `AddFile`: an I/O error from `Open`/`ReadAll`, or
a compile error from `CompileAll`. -/
inductive GoError where
  | fsError (e : Str)
  | compileError (e : CompileError)
deriving DecidableEq, Repr

/-- A file system, collapsing `fsys.Open` + `io.ReadAll` into one call:
either the file's content or an error. -/
abbrev FS := Str → Except Str Str

/-- `NoGo.AddFile`: read the file, compile its lines with the containing
directory as the rules' prefix, and append one group.  Both error paths
return before the `groups` field is touched, so the first component of
the result is the unchanged `n` there. -/
def AddFile (fsys : FS) (n : NoGo) (path : Str) : NoGo × Option GoError :=
  match fsys path with
  | .error e => (n, some (.fsError e))
  | .ok data =>
    let folder := dirOf path
    let folder := if folder == ['.'] then [] else folder
    match CompileAll folder data with
    | (_, some e) => (n, some (.compileError e))
    | (rules, none) => (n ++ [⟨folder, rules⟩], none)

/-- The body of the rule loop in `(*NoGo).match`: a matching rule is
recorded into `because` only when it passes the folder filter
`(OnlyFolder && isDir) || !OnlyFolder`. -/
def scanRule (path : Str) (isDir pm : Bool) (because : Result) (r : Rule) :
    Result :=
  let newRes := r.MatchPath path
  if newRes.Found && ((newRes.Rule.OnlyFolder && isDir) || !newRes.Rule.OnlyFolder)
  then { newRes with ParentMatch := pm }
  else because

/-- The group loop in `(*NoGo).match`: groups whose prefix is not a
string prefix of the current path are skipped. -/
def scanGroups (n : NoGo) (path : Str) (isDir pm : Bool) (because : Result) :
    Result :=
  n.foldl
    (fun acc g =>
      if hasPrefix g.Prefix path then
        g.rules.foldl (fun acc2 r => scanRule path isDir pm acc2 r) acc
      else acc)
    because

/-- The component loop in `(*NoGo).match`: walk the components, building
the cumulative path with `filepath.Join`, and scan all groups at each
step; `ParentMatch` records `i < len(pathToCheck)-1`. -/
def matchLoop (n : NoGo) (isDir : Bool) (total : Nat) :
    List Str → Nat → Str → Result → Result
  | [], _, _, because => because
  | p :: rest, i, path, because =>
    let path := toSlash (join2 path p)
    let because := scanGroups n path isDir (i + 1 < total) because
    matchLoop n isDir total rest (i + 1) path because

/-- `(*NoGo).match` from `nogo.go` (named `matchFn` because `match` is a
Lean keyword). -/
def matchFn (n : NoGo) (path0 : Str) (isDir noParents : Bool) :
    Bool × Result :=
  let pathToCheck := if noParents then [path0] else splitOn '/' (toSlash path0)
  let because := matchLoop n isDir pathToCheck.length pathToCheck 0 [] emptyResult
  if because.Found && because.Rule.OnlyFolder && !isDir && because.ParentMatch then
    (false, because)
  else if because.Found && because.Rule.Negate then (false, because)
  else (because.Found, because)

/-- `(*NoGo).MatchBecause`. -/
def MatchBecause (n : NoGo) (path : Str) (isDir : Bool) : Bool × Result :=
  matchFn n path isDir false

/-- `(*NoGo).MatchWithoutParents`. -/
def MatchWithoutParents (n : NoGo) (path : Str) (isDir : Bool) : Bool × Result :=
  matchFn n path isDir true

/-- `(*NoGo).Match`. -/
def Match (n : NoGo) (path : Str) (isDir : Bool) : Bool :=
  (MatchBecause n path isDir).1

/-! ## Scan characterization

The nested loops of `(*NoGo).match` are equivalent to one left-to-right
pass over a flattened list of `(rule, sub-path, parentFlag)` candidates,
keeping the last candidate that satisfies the recording condition. -/

/-- The rules consulted for one sub-path, in scan order (groups whose
prefix is not a string prefix of the sub-path are skipped). -/
def rulesAt (n : NoGo) (path : Str) : List Rule :=
  n.flatMap (fun g => if hasPrefix g.Prefix path then g.rules else [])

/-- The cumulative sub-paths of the component loop, each with its
`i < len(pathToCheck)-1` parent flag. -/
def cumSubPaths (total : Nat) : List Str → Nat → Str → List (Str × Bool)
  | [], _, _ => []
  | p :: rest, i, path =>
    let path := toSlash (join2 path p)
    (path, i + 1 < total) :: cumSubPaths total rest (i + 1) path

/-- All scan candidates of one query, in scan order. -/
def scanItems (n : NoGo) (subs : List (Str × Bool)) :
    List (Rule × Str × Bool) :=
  subs.flatMap (fun sp => (rulesAt n sp.1).map (fun r => (r, sp.1, sp.2)))

/-- The sub-path/flag list of a full (parent-aware) query. -/
def fullSubPaths (path0 : Str) : List (Str × Bool) :=
  cumSubPaths (splitOn '/' (toSlash path0)).length (splitOn '/' (toSlash path0)) 0 []

/-- The recording condition of the rule loop in `(*NoGo).match`: the rule
matches and passes the folder filter. -/
def recordCond (isDir : Bool) (c : Rule × Str × Bool) : Bool :=
  (c.1.MatchPath c.2.1).Found &&
    ((c.1.OnlyFolder && isDir) || !c.1.OnlyFolder)

/-- Plain match condition (no folder filter): what the spec's step 3
calls "a matching rule". -/
def plainCond (c : Rule × Str × Bool) : Bool :=
  (c.1.MatchPath c.2.1).Found

/-- The last element of a list satisfying `pred`. -/
def lastWhere (pred : α → Bool) (l : List α) : Option α :=
  l.reverse.find? pred

/-- The last element of `l` satisfying `pred`, mapped through `f`, with
default `a`. -/
def lastWhereD (pred : α → Bool) (l : List α) (a : β) (f : α → β) : β :=
  match lastWhere pred l with
  | none => a
  | some c => f c

/-- The `Result` recorded for a winning candidate. -/
def candResult : Rule × Str × Bool → Result
  | (r, _, pm) => ⟨r, true, pm⟩

/-- What the working `MatchResult` holds after the scan, stated via
`lastWhere`. -/
def scanBecause (isDir : Bool) (cands : List (Rule × Str × Bool)) : Result :=
  lastWhereD (recordCond isDir) cands emptyResult candResult

/-! ## Spec-side resolver definitions -/

/-- Modelled from the spec (§4.2, resolution algorithm, step 5): the full
resolver of `(*NoGo).match`, but evaluating the rules only at the
terminal cumulative sub-path `p_n` (i = n only), with the parent flag
always false, and the same final policy. -/
def restrictedMatch (n : NoGo) (path0 : Str) (isDir : Bool) :
    Bool × Result :=
  let comps := splitOn '/' (toSlash path0)
  let pn := comps.foldl (fun a b => toSlash (join2 a b)) []
  let because := scanGroups n pn isDir false emptyResult
  if because.Found && because.Rule.OnlyFolder && !isDir && because.ParentMatch then
    (false, because)
  else if because.Found && because.Rule.Negate then (false, because)
  else (because.Found, because)

/-- Modelled from the spec (§4.2, step 3): the winning rule is the LAST
matching rule encountered across the whole scan, with no directory-only
filtering. -/
def lastScanMatch (n : NoGo) (path0 : Str) : Option (Rule × Str × Bool) :=
  lastWhere plainCond (scanItems n (fullSubPaths path0))

/-- A well-formed path segment: nonempty, not `.`/`..`, no slash. -/
def okSeg (s : Str) : Bool :=
  !(s == []) && !(s == ['.']) && !(s == ['.', '.']) && !(s.contains '/')

/-- A slash-normalized relative path. -/
def okPath (p : Str) : Bool :=
  !(p == []) && (splitOn '/' p).all okSeg

/-! ## Concrete stores and rules used by the claim theorems -/

/-- The two rules of an ignore file `/ignoredFolder/` +
`ignoredFolder-notAFolder/`, loaded at the root. -/
def c1rules : List Rule :=
  (CompileAll [] "/ignoredFolder/\nignoredFolder-notAFolder/".data).1

def c1store : NoGo := [⟨[], c1rules⟩]

/-- A plain rule `aFile` followed by a negated directory-only rule
`!aFile/`. -/
def c2rules : List Rule := (CompileAll [] "aFile\n!aFile/".data).1

def c2store : NoGo := AddRules [] c2rules

def c3rule : Rule := (Compile [] "a?b".data).2.1

def c5rule : Rule := (Compile [] "\\!important!.txt".data).2.1

def c5hashRule : Rule := (Compile [] "\\#foo".data).2.1

def c6rules : List Rule :=
  (CompileAll []
    "aPartiallyIgnoredFolder/**\n!aPartiallyIgnoredFolder/.gitignore".data).1

def c6store : NoGo := [⟨[], c6rules⟩]

def c7rule : Rule := (Compile [] "foo".data).2.1

def c7rulePrefixed : Rule := (Compile "a/folder".data "aFile".data).2.1

def c8rule : Rule := (Compile [] "/aFile".data).2.1

def c8store : NoGo := [⟨[], [c8rule]⟩]

/-- A file system with one ignore file whose second line fails to
compile, and nothing else. -/
def c9fs : FS := fun p =>
  if p == "sub/.gitignore".data then Except.ok "good\n[a][b\nalso".data
  else Except.error "file does not exist".data

def c9store : NoGo := [⟨[], [(Compile [] "keep".data).2.1]⟩]

def c10rule : Rule :=
  (Compile "glob-tests".data "/file[a-z]with[!0-9]ranges".data).2.1


theorem MatchPath_go_eq (r : Rule) (path : Str) (l : List Str) (m : Bool) :
    Rule.MatchPath.go r path l m =
      ⟨r, (Rule.MatchPath.go r path l m).Found, false⟩ := by
  induction l generalizing m with
  | nil => rfl
  | cons reg rest ih =>
    unfold Rule.MatchPath.go
    by_cases h : matchString reg path = true
    · rw [if_pos h]
      exact ih true
    · rw [if_neg h]

theorem MatchPath_eq (r : Rule) (path : Str) :
    r.MatchPath path = ⟨r, (r.MatchPath path).Found, false⟩ :=
  MatchPath_go_eq r path r.Regexp false

theorem MatchPath_go_found (r : Rule) (path : Str) (l : List Str) (m : Bool) :
    (Rule.MatchPath.go r path l m).Found =
      (match l with
       | [] => m
       | _ => l.all (fun reg => matchString reg path)) := by
  induction l generalizing m with
  | nil => rfl
  | cons reg rest ih =>
    unfold Rule.MatchPath.go
    by_cases h : matchString reg path = true
    · rw [if_pos h, ih true]
      cases rest with
      | nil => simp [h]
      | cons b l2 => simp [h]
    · rw [if_neg h]
      simp only [Bool.not_eq_true] at h
      simp [h]

/-- `Rule.MatchPath` finds a match exactly when the rule has at least one
regexp and ALL of its regexps match the path. -/
theorem MatchPath_Found_all (r : Rule) (path : Str) :
    (r.MatchPath path).Found =
      (!r.Regexp.isEmpty && r.Regexp.all (fun reg => matchString reg path)) := by
  unfold Rule.MatchPath
  rw [MatchPath_go_found]
  cases r.Regexp with
  | nil => rfl
  | cons a l => simp

theorem foldl_if_lastWhere (l : List α) (pred : α → Bool) (f : α → β) (a : β) :
    l.foldl (fun acc c => if pred c then f c else acc) a =
      lastWhereD pred l a f := by
  unfold lastWhereD
  induction l using List.reverseRecOn with
  | nil => rfl
  | append_singleton xs c ih =>
    rw [List.foldl_append]
    unfold lastWhereD at ih
    unfold lastWhere at *
    rw [List.reverse_append]
    simp only [List.reverse_cons, List.reverse_nil, List.nil_append,
      List.cons_append, List.find?, List.foldl_cons, List.foldl_nil]
    by_cases h : pred c = true
    · simp [h]
    · simp only [Bool.not_eq_true] at h
      simp [h, ih]

theorem scanRule_eq (path : Str) (isDir pm : Bool) (acc : Result) (r : Rule) :
    scanRule path isDir pm acc r =
      (if recordCond isDir (r, path, pm) then candResult (r, path, pm)
       else acc) := by
  simp only [scanRule, recordCond, candResult]
  rw [MatchPath_eq r path]
  cases hX : (r.MatchPath path).Found <;> simp [hX]

theorem scanGroups_eq (n : NoGo) (path : Str) (isDir pm : Bool)
    (acc : Result) :
    scanGroups n path isDir pm acc =
      (rulesAt n path).foldl
        (fun a r =>
          if recordCond isDir (r, path, pm) then candResult (r, path, pm)
          else a)
        acc := by
  unfold scanGroups rulesAt
  simp only [scanRule_eq]
  induction n generalizing acc with
  | nil => rfl
  | cons g gs ih =>
    simp only [List.foldl_cons, List.flatMap_cons, List.foldl_append]
    rw [ih]
    by_cases hp : hasPrefix g.Prefix path = true
    · rw [if_pos hp, if_pos hp]
    · rw [if_neg hp, if_neg hp]
      rfl

theorem matchLoop_eq (n : NoGo) (isDir : Bool) (total : Nat)
    (comps : List Str) (i : Nat) (path : Str) (acc : Result) :
    matchLoop n isDir total comps i path acc =
      (scanItems n (cumSubPaths total comps i path)).foldl
        (fun a c => if recordCond isDir c then candResult c else a) acc := by
  induction comps generalizing i path acc with
  | nil => rfl
  | cons p rest ih =>
    unfold matchLoop cumSubPaths
    simp only [scanItems, List.flatMap_cons, List.foldl_append]
    rw [ih, scanGroups_eq, List.foldl_map]
    rfl

theorem ifChain_snd (isDir : Bool) (b : Result) :
    (if b.Found && b.Rule.OnlyFolder && !isDir && b.ParentMatch then
       ((false : Bool), b)
     else if b.Found && b.Rule.Negate then (false, b)
     else (b.Found, b)).2 = b := by
  split
  · rfl
  · split <;> rfl

theorem ifChain_fst (isDir : Bool) (b : Result) :
    (if b.Found && b.Rule.OnlyFolder && !isDir && b.ParentMatch then
       ((false : Bool), b)
     else if b.Found && b.Rule.Negate then (false, b)
     else (b.Found, b)).1 =
      (b.Found && !(b.Rule.OnlyFolder && !isDir && b.ParentMatch) &&
        !b.Rule.Negate) := by
  cases hf : b.Found <;> cases ho : b.Rule.OnlyFolder <;>
    cases hn : b.Rule.Negate <;> cases hp : b.ParentMatch <;>
    cases isDir <;> simp [hf, ho, hn, hp]

theorem matchFn_snd_full (n : NoGo) (path0 : Str) (isDir : Bool) :
    (matchFn n path0 isDir false).2 =
      matchLoop n isDir (splitOn '/' (toSlash path0)).length
        (splitOn '/' (toSlash path0)) 0 [] emptyResult := by
  unfold matchFn
  exact ifChain_snd isDir _

theorem matchFn_snd_np (n : NoGo) (path0 : Str) (isDir : Bool) :
    (matchFn n path0 isDir true).2 =
      matchLoop n isDir 1 [path0] 0 [] emptyResult := by
  unfold matchFn
  exact ifChain_snd isDir _

/-- The recorded `MatchResult` of a full query is the last candidate of
the flattened scan that satisfies the recording condition. -/
theorem matchFn_because_full (n : NoGo) (path0 : Str) (isDir : Bool) :
    (matchFn n path0 isDir false).2 =
      scanBecause isDir (scanItems n (fullSubPaths path0)) := by
  rw [matchFn_snd_full, matchLoop_eq, foldl_if_lastWhere]
  unfold scanBecause fullSubPaths
  rfl

/-- The recorded `MatchResult` of a no-parents query scans only the one
cumulative path `Join("", path)`, with parent flag `false`. -/
theorem matchFn_because_np (n : NoGo) (path0 : Str) (isDir : Bool) :
    (matchFn n path0 isDir true).2 =
      scanBecause isDir
        (scanItems n [(toSlash (join2 [] path0), false)]) := by
  rw [matchFn_snd_np, matchLoop_eq, foldl_if_lastWhere]
  have h1 : cumSubPaths 1 [path0] 0 [] =
      [(toSlash (join2 [] path0), false)] := rfl
  rw [h1]
  unfold scanBecause
  rfl

/-- The final decision of `(*NoGo).match` as one boolean equation over
the recorded result. -/
theorem matchFn_fst (n : NoGo) (path0 : Str) (isDir noParents : Bool) :
    (matchFn n path0 isDir noParents).1 =
      ((matchFn n path0 isDir noParents).2.Found &&
        !((matchFn n path0 isDir noParents).2.Rule.OnlyFolder && !isDir &&
          (matchFn n path0 isDir noParents).2.ParentMatch) &&
        !(matchFn n path0 isDir noParents).2.Rule.Negate) := by
  cases noParents with
  | false =>
    rw [matchFn_snd_full]
    unfold matchFn
    exact ifChain_fst isDir _
  | true =>
    rw [matchFn_snd_np]
    unfold matchFn
    exact ifChain_fst isDir _

/-! ## Normalized paths

For slash-normalized relative paths (nonempty segments, none of them `.`
or `..`) the cumulative `filepath.Join` chain of the component loop
reproduces the path itself, so the terminal sub-path of a full scan and
the single sub-path of a no-parents scan coincide. -/

theorem splitOn_ne_nil (sep : Char) (s : Str) : splitOn sep s ≠ [] := by
  cases s with
  | nil => simp [splitOn]
  | cons c rest =>
    unfold splitOn
    cases splitOn sep rest with
    | nil => simp
    | cons x xs =>
      by_cases h : c == sep <;> simp [h]

theorem joinSlash_cons_cons (c : Char) (x : Str) (xs : List Str) :
    joinSlash ((c :: x) :: xs) = c :: joinSlash (x :: xs) := by
  cases xs <;> rfl

theorem joinSlash_splitOn (p : Str) : joinSlash (splitOn '/' p) = p := by
  induction p with
  | nil => rfl
  | cons c rest ih =>
    unfold splitOn
    cases hs : splitOn '/' rest with
    | nil => exact absurd hs (splitOn_ne_nil '/' rest)
    | cons x xs =>
      rw [hs] at ih
      dsimp only
      by_cases h : (c == '/') = true
      · rw [if_pos h]
        have hc : c = '/' := by simpa using h
        subst hc
        cases xs <;> simpa [joinSlash] using ih
      · rw [if_neg h]
        rw [joinSlash_cons_cons, ih]

theorem splitOn_no_sep (sep : Char) (s : Str)
    (h : s.contains sep = false) : splitOn sep s = [s] := by
  induction s with
  | nil => rfl
  | cons c rest ih =>
    rw [List.contains_cons, Bool.or_eq_false_iff] at h
    unfold splitOn
    rw [ih h.2]
    dsimp only
    have hcs : ¬((c == sep) = true) := by
      intro hb
      have hc : c = sep := by simpa using hb
      subst hc
      simp at h
    rw [if_neg hcs]

theorem splitOn_append_sep (sep : Char) (s t : Str)
    (h : s.contains sep = false) :
    splitOn sep (s ++ sep :: t) = s :: splitOn sep t := by
  induction s with
  | nil =>
    simp only [List.nil_append]
    conv_lhs => unfold splitOn
    cases hs : splitOn sep t with
    | nil => exact absurd hs (splitOn_ne_nil sep t)
    | cons x xs =>
      dsimp only
      rw [if_pos (by simp)]
  | cons c s2 ih =>
    rw [List.contains_cons, Bool.or_eq_false_iff] at h
    have hrec := ih h.2
    simp only [List.cons_append]
    conv_lhs => unfold splitOn
    rw [hrec]
    dsimp only
    have hcs : ¬((c == sep) = true) := by
      intro hb
      have hc : c = sep := by simpa using hb
      subst hc
      simp at h
    rw [if_neg hcs]

theorem splitOn_joinSlash (segs : List Str) (hne : segs ≠ [])
    (hok : ∀ s ∈ segs, s.contains '/' = false) :
    splitOn '/' (joinSlash segs) = segs := by
  induction segs with
  | nil => exact absurd rfl hne
  | cons s rest ih =>
    cases rest with
    | nil => exact splitOn_no_sep '/' s (hok s (by simp))
    | cons s2 rest2 =>
      have hj : joinSlash (s :: s2 :: rest2) = s ++ '/' :: joinSlash (s2 :: rest2) := rfl
      rw [hj, splitOn_append_sep '/' s _ (hok s (by simp))]
      rw [ih (by simp) (fun x hx => hok x (by simp [hx]))]

theorem okSeg_facts (s : Str) (h : okSeg s = true) :
    ¬((s == ([] : Str)) = true) ∧ ¬((s == ['.']) = true) ∧
      ¬((s == ['.', '.']) = true) ∧ s.contains '/' = false := by
  simp only [okSeg, Bool.and_eq_true, Bool.not_eq_true'] at h
  refine ⟨?_, ?_, ?_, h.2⟩
  · simp [h.1.1.1]
  · simp [h.1.1.2]
  · simp [h.1.2]

theorem cleanSegs_ok (segs : List Str) (out : List Str)
    (hok : segs.all okSeg = true) :
    cleanSegs false segs out = out.reverse ++ segs := by
  induction segs generalizing out with
  | nil => simp [cleanSegs]
  | cons s rest ih =>
    simp only [List.all_cons, Bool.and_eq_true] at hok
    obtain ⟨h1, h2, h3, _⟩ := okSeg_facts s hok.1
    unfold cleanSegs
    rw [if_neg (by
      simp only [Bool.or_eq_true]
      rintro (h | h)
      exacts [h1 h, h2 h])]
    rw [if_neg h3]
    rw [ih (s :: out) hok.2]
    simp

theorem joinSlash_ne_nil (s : Str) (rest : List Str) (hs : s ≠ []) :
    joinSlash (s :: rest) ≠ [] := by
  cases rest with
  | nil => simpa [joinSlash]
  | cons s2 rest2 =>
    have hj : joinSlash (s :: s2 :: rest2) = s ++ '/' :: joinSlash (s2 :: rest2) := rfl
    rw [hj]
    simp

theorem okPath_head_ne_slash (p : Str) (hok : okPath p = true) :
    hasPrefix ['/'] p = false := by
  simp only [okPath, Bool.and_eq_true, Bool.not_eq_true'] at hok
  obtain ⟨hne, hall⟩ := hok
  cases hp : p with
  | nil => rw [hp] at hne; simp at hne
  | cons c rest =>
    by_cases hc : c = '/'
    · subst hc
      rw [hp] at hall
      unfold splitOn at hall
      revert hall
      cases hs : splitOn '/' rest with
      | nil => exact absurd hs (splitOn_ne_nil '/' rest)
      | cons x xs =>
        dsimp only
        rw [if_pos (by simp)]
        intro hall
        simp only [List.all_cons, Bool.and_eq_true] at hall
        have := hall.1
        simp [okSeg] at this
    · have hcb : ('/' == c) = false := by
        cases hcb : ('/' == c) with
        | false => rfl
        | true =>
          have h2 : '/' = c := by simpa using hcb
          exact absurd h2.symm hc
      simp [hasPrefix, List.isPrefixOf, hcb]

theorem okPath_all_okSeg (p : Str) (hok : okPath p = true) :
    (splitOn '/' p).all okSeg = true := by
  simp only [okPath, Bool.and_eq_true] at hok
  exact hok.2

theorem clean_ok (p : Str) (hok : okPath p = true) : clean p = p := by
  have hall := okPath_all_okSeg p hok
  have hne : ¬((p == ([] : Str)) = true) := by
    simp only [okPath, Bool.and_eq_true, Bool.not_eq_true'] at hok
    simp [hok.1]
  unfold clean
  rw [if_neg hne]
  rw [okPath_head_ne_slash p hok]
  unfold splitSlash
  simp only [Bool.false_eq_true, if_false]
  rw [cleanSegs_ok _ _ hall]
  simp only [List.reverse_nil, List.nil_append]
  rw [joinSlash_splitOn p]
  rw [if_neg hne]

theorem okSeg_ne_nil (s : Str) (h : okSeg s = true) : s ≠ [] := by
  obtain ⟨h1, _, _, _⟩ := okSeg_facts s h
  intro he
  subst he
  simp at h1

theorem okPath_of_okSeg (s : Str) (h : okSeg s = true) : okPath s = true := by
  unfold okPath
  rw [splitOn_no_sep '/' s (okSeg_facts s h).2.2.2]
  have hne := okSeg_ne_nil s h
  simp [h, hne]

theorem okPath_joinSlash (segs : List Str) (hne : segs ≠ [])
    (hok : segs.all okSeg = true) : okPath (joinSlash segs) = true := by
  unfold okPath
  have hnoslash : ∀ s ∈ segs, s.contains '/' = false := fun s hs =>
    (okSeg_facts s (List.all_eq_true.mp hok s hs)).2.2.2
  rw [splitOn_joinSlash segs hne hnoslash]
  cases segs with
  | nil => exact absurd rfl hne
  | cons s rest =>
    have hs : okSeg s = true := by
      simp only [List.all_cons, Bool.and_eq_true] at hok
      exact hok.1
    have := joinSlash_ne_nil s rest (okSeg_ne_nil s hs)
    simp [hok, this]

theorem joinSlash_cons_ne (a : Str) (rest : List Str) (h : rest ≠ []) :
    joinSlash (a :: rest) = a ++ '/' :: joinSlash rest := by
  cases rest with
  | nil => exact absurd rfl h
  | cons b t => rfl

theorem joinSlash_append_singleton (pre : List Str) (s : Str)
    (h : pre ≠ []) :
    joinSlash (pre ++ [s]) = joinSlash pre ++ '/' :: s := by
  induction pre with
  | nil => exact absurd rfl h
  | cons a t ih =>
    cases t with
    | nil => rfl
    | cons b t2 =>
      rw [List.cons_append, joinSlash_cons_ne a (b :: t2 ++ [s]) (by simp),
        ih (by simp), joinSlash_cons_ne a (b :: t2) (by simp)]
      simp

theorem join2_nil_ok (p : Str) (hok : okPath p = true) : join2 [] p = p := by
  have hne : ¬((p == ([] : Str)) = true) := by
    simp only [okPath, Bool.and_eq_true, Bool.not_eq_true'] at hok
    simp [hok.1]
  unfold join2
  rw [if_pos (by simp), if_neg hne]
  exact clean_ok p hok

theorem foldl_join_aux (rest : List Str) (pre : List Str) (hpre : pre ≠ [])
    (hok : (pre ++ rest).all okSeg = true) :
    rest.foldl (fun a b => toSlash (join2 a b)) (joinSlash pre) =
      joinSlash (pre ++ rest) := by
  induction rest generalizing pre with
  | nil => simp
  | cons s rest2 ih =>
    have hokPre : pre.all okSeg = true := by
      rw [List.all_eq_true] at hok ⊢
      exact fun x hx => hok x (by simp [hx])
    have hokS : okSeg s = true := by
      rw [List.all_eq_true] at hok
      exact hok s (by simp)
    have hstep : toSlash (join2 (joinSlash pre) s) = joinSlash (pre ++ [s]) := by
      have hjne : ¬((joinSlash pre == ([] : Str)) = true) := by
        cases pre with
        | nil => exact absurd rfl hpre
        | cons a t =>
          have ha : okSeg a = true := by
            rw [List.all_eq_true] at hokPre
            exact hokPre a (by simp)
          have := joinSlash_ne_nil a t (okSeg_ne_nil a ha)
          simpa using this
      unfold toSlash join2
      rw [if_neg hjne, ← joinSlash_append_singleton pre s hpre]
      exact clean_ok _ (okPath_joinSlash _ (by cases pre <;> simp)
        (by rw [List.all_eq_true] at hok ⊢
            intro x hx
            apply hok
            rcases List.mem_append.mp hx with h | h
            · simp [h]
            · simp only [List.mem_singleton] at h
              simp [h]))
    rw [List.foldl_cons, hstep, ih (pre ++ [s]) (by simp)
      (by simpa using hok)]
    simp

theorem termPath_ok (p : Str) (hok : okPath p = true) :
    (splitOn '/' (toSlash p)).foldl (fun a b => toSlash (join2 a b)) [] = p := by
  have hall := okPath_all_okSeg p hok
  cases hsp : splitOn '/' p with
  | nil => exact absurd hsp (splitOn_ne_nil '/' p)
  | cons s rest =>
    rw [hsp] at hall
    have hokS : okSeg s = true := by
      simp only [List.all_cons, Bool.and_eq_true] at hall
      exact hall.1
    have hstep : toSlash (join2 [] s) = joinSlash [s] := by
      unfold toSlash
      rw [join2_nil_ok s (okPath_of_okSeg s hokS)]
      rfl
    have : toSlash p = p := rfl
    rw [this, hsp, List.foldl_cons, hstep,
      foldl_join_aux rest [s] (by simp) (by simpa using hall)]
    have hj := joinSlash_splitOn p
    rw [hsp] at hj
    simpa using hj

theorem lastWhere_mem {pred : α → Bool} {l : List α} {c : α}
    (h : lastWhere pred l = some c) : c ∈ l := by
  unfold lastWhere at h
  have := List.mem_of_find?_eq_some h
  simpa using this

/-- `MatchWithoutParents` always reports `ParentMatch = false`. -/
theorem matchWithoutParents_ParentMatch_false (n : NoGo) (path : Str)
    (isDir : Bool) :
    (MatchWithoutParents n path isDir).2.ParentMatch = false := by
  show (matchFn n path isDir true).2.ParentMatch = false
  rw [matchFn_because_np]
  unfold scanBecause lastWhereD
  cases hw : lastWhere (recordCond isDir)
      (scanItems n [(toSlash (join2 [] path), false)]) with
  | none => rfl
  | some c =>
    have hmem := lastWhere_mem hw
    unfold scanItems at hmem
    simp only [List.flatMap_cons, List.flatMap_nil, List.append_nil,
      List.mem_map] at hmem
    obtain ⟨r, _, hr⟩ := hmem
    rw [← hr]
    rfl

/-- On slash-normalized relative paths, `MatchWithoutParents` coincides
with the full resolver restricted to the terminal sub-path. -/
theorem matchWithoutParents_eq_restricted (n : NoGo) (path : Str)
    (isDir : Bool) (hok : okPath path = true) :
    MatchWithoutParents n path isDir = restrictedMatch n path isDir := by
  have hterm : (splitOn '/' (toSlash path)).foldl
      (fun a b => toSlash (join2 a b)) [] = toSlash (join2 [] path) := by
    rw [termPath_ok path hok]
    unfold toSlash
    rw [join2_nil_ok path hok]
  have heq : matchLoop n isDir 1 [path] 0 [] emptyResult =
      scanGroups n
        ((splitOn '/' (toSlash path)).foldl (fun a b => toSlash (join2 a b)) [])
        isDir false emptyResult := by
    rw [hterm]
    rfl
  exact congrArg
    (fun b : Result =>
      if b.Found && b.Rule.OnlyFolder && !isDir && b.ParentMatch then
        ((false : Bool), b)
      else if b.Found && b.Rule.Negate then (false, b)
      else (b.Found, b))
    heq

/-! ## C9 helper lemmas -/

theorem compileAllGo_err_nil (pre : Str) (lines : List Str)
    (acc : List Rule) (h : (CompileAll.go pre lines acc).2 ≠ none) :
    (CompileAll.go pre lines acc).1 = [] := by
  induction lines generalizing acc with
  | nil => simp [CompileAll.go] at h
  | cons line rest ih =>
    simp only [CompileAll.go] at h ⊢
    rcases hc : Compile pre (trimSuffix line ['\r']) with ⟨skip, rule, err⟩
    rw [hc] at h
    cases skip with
    | true =>
      cases err with
      | some e => rfl
      | none => exact ih _ h
    | false =>
      cases err with
      | some e => rfl
      | none => exact ih _ h

/-- On a compile error `CompileAll` returns `nil` rules together with the
error. -/
theorem compileAll_err_nil (pre data : Str)
    (h : (CompileAll pre data).2 ≠ none) : (CompileAll pre data).1 = [] :=
  compileAllGo_err_nil pre _ [] h

/-- On any error (I/O or compile) `AddFile` leaves the group sequence
unchanged. -/
theorem addFile_err_unchanged (fsys : FS) (n : NoGo) (path : Str)
    (h : (AddFile fsys n path).2 ≠ none) : (AddFile fsys n path).1 = n := by
  simp only [AddFile] at h ⊢
  cases hfs : fsys path with
  | error e => simp [hfs]
  | ok d =>
    simp only [hfs] at h ⊢
    rcases hca : CompileAll (if dirOf path == ['.'] then [] else dirOf path) d
      with ⟨rules, err⟩
    simp only [hca] at h ⊢
    cases err with
    | some e => rfl
    | none => simp at h

/-! ## Claim theorems -/

/-- Claim C1 (code evaluation at the failing input): for the root rules
compiled from `/ignoredFolder/` and `ignoredFolder-notAFolder/`, the
parent-aware resolver reports `("ignoredFolder", isDirectory=true)` as
ignored and `("ignoredFolder-notAFolder", isDirectory=false)` as not
ignored, as the claim states; but the file query
`("ignoredFolder/aFile", isDirectory=false)` is reported NOT ignored,
contradicting the claim: the rule loop refuses to record the
directory-only match on the parent because it tests the query's
`isDir` flag instead of the parent's.  `Result.Resolve` — the resolution
policy of `result.go` that the spec describes — would report exactly
such a parent match as ignored (last conjunct). -/
theorem c1_code_eval :
    (MatchBecause c1store "ignoredFolder".data true).1 = true ∧
    (MatchBecause c1store "ignoredFolder-notAFolder".data false).1 = false ∧
    (MatchBecause c1store "ignoredFolder/aFile".data false).1 = false ∧
    c1rules.all
      (fun r => Result.Resolve ⟨r, true, true⟩ false) = true := by
  refine ⟨by decide, by decide, by decide, by decide⟩

/-- Claim C2 (counterexample): with the store holding the rule `aFile`
followed by `!aFile/`, the LAST rule of the whole scan whose regexps
match the file query `("aFile", isDirectory=false)` is the negated
directory-only rule, yet the final decision is "ignored" — refuting
"the winning rule is the last matching rule encountered across the
whole scan, and a negated winning rule means NOT ignored". -/
theorem c2_counterexample :
    (lastScanMatch c2store "aFile".data).map (fun c => c.1.Negate) =
      some true ∧
    (MatchBecause c2store "aFile".data false).1 = true := by
  refine ⟨by decide, by decide⟩

/-- Claim C2 (amended): the recorded winning rule is the last candidate
of the whole scan that matches AND passes the folder filter
(a directory-only rule is only recorded when the query is a directory),
and the final decision equals `found && !(dirOnlySuppression) &&
!negate` — in particular a negated winning rule always yields NOT
ignored. -/
theorem c2_amended (n : NoGo) (path : Str) (isDir : Bool) :
    (MatchBecause n path isDir).2 =
      scanBecause isDir (scanItems n (fullSubPaths path)) ∧
    (MatchBecause n path isDir).1 =
      ((MatchBecause n path isDir).2.Found &&
        !((MatchBecause n path isDir).2.Rule.OnlyFolder && !isDir &&
          (MatchBecause n path isDir).2.ParentMatch) &&
        !(MatchBecause n path isDir).2.Rule.Negate) :=
  ⟨matchFn_because_full n path isDir, matchFn_fst n path isDir false⟩

/-- Claim C3 (counterexample): the matcher compiled from `a?b` DOES
match `ab` (zero characters at the `?`), because `?` is translated to
the regexp `[^/]?`, refuting "matches exactly one character". -/
theorem c3_counterexample :
    (Compile [] "a?b".data).2.2 = none ∧
    (c3rule.MatchPath "ab".data).Found = true := by
  refine ⟨by decide, by decide⟩

/-- Claim C3 (amended): `?` matches at most one character excluding `/`:
the matcher compiled from `a?b` (as regexp `(.*/)?a[^/]?b`) matches
`axb` and `ab`, but not `a/b`. -/
theorem c3_amended :
    c3rule.Regexp = ["^(.*/)?a[^/]?b$".data] ∧
    (c3rule.MatchPath "axb".data).Found = true ∧
    (c3rule.MatchPath "ab".data).Found = true ∧
    (c3rule.MatchPath "a/b".data).Found = false := by
  refine ⟨by decide, by decide, by decide, by decide⟩

/-- Claim C4 (code evaluation at the failing input): compiling the
unterminated bracket expression `[lool` does NOT return an error; it
returns a rule whose regexp still contains the raw `matchStart`
placeholder byte `\x04`, because `finishPattern` restores the bracket
placeholders on the captured outer `pattern` variable instead of on its
argument `p`.  The repository's own test (`nogo_test.go`, "open [ in
pattern") expects an error here. -/
theorem c4_code_eval :
    Compile [] "[lool".data =
      (false,
       { Regexp := ["^(.*/)?\x04lool$".data], Prefix := [],
         Pattern := "[lool".data, Negate := false, OnlyFolder := false },
       none) := by
  decide

/-- Claim C5 (code evaluation at the failing input): for the pattern
`\!important!.txt` the compiled rule indeed has `negate = false` (the
`!` is not treated as negation), and `\#foo` matches `#foo`; but the
matcher does NOT match `!important!.txt` — the backslash is never
stripped, so the rule only matches the literal string
`\!important!.txt` — contradicting the escaping behaviour that the
claim (and the package documentation of `nogo.go`) states. -/
theorem c5_code_eval :
    c5rule.Negate = false ∧
    (c5rule.MatchPath "!important!.txt".data).Found = false ∧
    (c5rule.MatchPath "\\!important!.txt".data).Found = true ∧
    c5hashRule.Negate = false ∧
    (c5hashRule.MatchPath "#foo".data).Found = true := by
  refine ⟨by decide, by decide, by decide, by decide, by decide⟩

/-- Claim C6: with the root rules `aPartiallyIgnoredFolder/**` followed
by `!aPartiallyIgnoredFolder/.gitignore`, the parent-aware resolver
reports `aPartiallyIgnoredFolder/ignoredFolder/.gitignore`
(isDirectory=false) as ignored, and the deciding rule is the
non-negated `/**` rule, not the negated pattern. -/
theorem c6_negation_cannot_resurrect :
    (MatchBecause c6store
      "aPartiallyIgnoredFolder/ignoredFolder/.gitignore".data false).1 =
      true ∧
    (MatchBecause c6store
      "aPartiallyIgnoredFolder/ignoredFolder/.gitignore".data
      false).2.Rule.Negate = false ∧
    (MatchBecause c6store
      "aPartiallyIgnoredFolder/ignoredFolder/.gitignore".data
      false).2.Rule.Pattern = "aPartiallyIgnoredFolder/**".data := by
  refine ⟨by decide, by decide, by decide⟩

/-- Claim C7: a pattern with zero internal slashes compiles to a
both-ends-anchored matcher that matches the name at any depth under the
prefix: with prefix `""` the pattern `foo` becomes the anchored regexp
`^(.*/)?foo$` and matches `foo`, `a/foo`, `a/b/foo` but neither `fooo`
nor `a/foo.txt`; with prefix `a/folder` the pattern `aFile` becomes
`^a/folder(/.*)?/aFile$` with the analogous behaviour. -/
theorem c7_match_any_depth :
    c7rule.Regexp = ["^(.*/)?foo$".data] ∧
    (c7rule.MatchPath "foo".data).Found = true ∧
    (c7rule.MatchPath "a/foo".data).Found = true ∧
    (c7rule.MatchPath "a/b/foo".data).Found = true ∧
    (c7rule.MatchPath "fooo".data).Found = false ∧
    (c7rule.MatchPath "a/foo.txt".data).Found = false ∧
    c7rulePrefixed.Regexp = ["^a/folder(/.*)?/aFile$".data] ∧
    (c7rulePrefixed.MatchPath "a/folder/aFile".data).Found = true ∧
    (c7rulePrefixed.MatchPath "a/folder/sub/aFile".data).Found = true ∧
    (c7rulePrefixed.MatchPath "a/folder/sub/aFile.go".data).Found = false := by
  refine ⟨by decide, by decide, by decide, by decide, by decide, by decide,
    by decide, by decide, by decide, by decide⟩

/-- Claim C8 (counterexample): for the store holding the anchored rule
`/aFile` and the query path `/aFile` (a path with a leading slash), the
full resolution algorithm restricted to the terminal cumulative
sub-path decides "ignored" (the cumulative `filepath.Join` chain
swallows the leading slash), while `MatchWithoutParents` — which joins
the whole path in one step, keeping the slash — decides "not ignored";
so the two are NOT equal for every path. -/
theorem c8_counterexample :
    (restrictedMatch c8store "/aFile".data false).1 = true ∧
    (MatchWithoutParents c8store "/aFile".data false).1 = false := by
  refine ⟨by decide, by decide⟩

/-- Claim C8 (amended): `MatchWithoutParents` always returns a result
with `ParentMatch = false`, and on every slash-normalized relative path
(nonempty segments, no leading slash, no `.`/`..` components) it equals
the full resolution algorithm restricted to the terminal cumulative
sub-path. -/
theorem c8_amended (n : NoGo) (path : Str) (isDir : Bool) :
    (MatchWithoutParents n path isDir).2.ParentMatch = false ∧
    (okPath path = true →
      MatchWithoutParents n path isDir = restrictedMatch n path isDir) :=
  ⟨matchWithoutParents_ParentMatch_false n path isDir,
   fun hok => matchWithoutParents_eq_restricted n path isDir hok⟩

/-- Claim C8 witness: the amended equivalence applied at the concrete
normalized path `aFile`. -/
theorem c8_amended_witness :
    okPath "aFile".data = true ∧
    (MatchWithoutParents c8store "aFile".data false).2.ParentMatch = false ∧
    MatchWithoutParents c8store "aFile".data false =
      restrictedMatch c8store "aFile".data false :=
  ⟨by decide, (c8_amended c8store "aFile".data false).1,
   (c8_amended c8store "aFile".data false).2 (by decide)⟩

/-- Claim C9: batch compilation fails atomically — whenever `CompileAll`
reports an error it returns `nil` rules, and whenever `AddFile` reports
an error (I/O or compile) it leaves the store's group sequence exactly
as it was. -/
theorem c9_batch_atomicity (fsys : FS) (n : NoGo) (path pre data : Str) :
    ((CompileAll pre data).2 ≠ none → (CompileAll pre data).1 = []) ∧
    ((AddFile fsys n path).2 ≠ none → (AddFile fsys n path).1 = n) :=
  ⟨fun h => compileAll_err_nil pre data h,
   fun h => addFile_err_unchanged fsys n path h⟩

/-- Claim C9 witness: a failing batch (second line `[a][b`), a failing
`AddFile` on that file, and a failing `AddFile` on a missing file. -/
theorem c9_batch_atomicity_witness :
    ((CompileAll [] "good\n[a][b\nalso".data).2 ≠ none ∧
     (CompileAll [] "good\n[a][b\nalso".data).1 = []) ∧
    ((AddFile c9fs c9store "sub/.gitignore".data).2 ≠ none ∧
     (AddFile c9fs c9store "sub/.gitignore".data).1 = c9store) ∧
    ((AddFile c9fs c9store "missing".data).2 ≠ none ∧
     (AddFile c9fs c9store "missing".data).1 = c9store) :=
  ⟨⟨by decide,
    (c9_batch_atomicity c9fs c9store [] [] "good\n[a][b\nalso".data).1
      (by decide)⟩,
   ⟨by decide,
    (c9_batch_atomicity c9fs c9store "sub/.gitignore".data [] []).2
      (by decide)⟩,
   ⟨by decide,
    (c9_batch_atomicity c9fs c9store "missing".data [] []).2 (by decide)⟩⟩

/-- Claim C10: a rule matches a path only when ALL of its regexps match
(general equation), and the rule compiled from
`/file[a-z]with[!0-9]ranges` under prefix `glob-tests` carries the
auxiliary matcher `^glob-tests/file[^/]with[^/]ranges$` (every class
replaced by `[^/]`) next to the real one, so the candidate
`glob-tests/filefwith/ranges` — a `/` in a class position — does not
match, while `glob-tests/filefwith-ranges` does. -/
theorem c10_class_never_matches_slash :
    (∀ (r : Rule) (path : Str),
      (r.MatchPath path).Found =
        (!r.Regexp.isEmpty &&
          r.Regexp.all (fun reg => matchString reg path))) ∧
    c10rule.Regexp =
      ["^glob-tests/file[^/]with[^/]ranges$".data,
       "^glob-tests/file[a-z]with[^0-9]ranges$".data] ∧
    (c10rule.MatchPath "glob-tests/filefwith/ranges".data).Found = false ∧
    (c10rule.MatchPath "glob-tests/filefwith-ranges".data).Found = true :=
  ⟨MatchPath_Found_all, by decide, by decide, by decide⟩
